import Mathlib

/-!
Verification of the parallel-ssh execution engine (`sshp.c`).

Shallow embedding: bytes are `Nat`s (a newline is `10`, a nul is `0`),
buffers are byte lists, child streams are byte-chunk sequences as delivered
by `read(2)`, and the stateful C functions become explicit state-passing
Lean functions.  Fallible paths return `Except Nat` carrying the process
exit code.  Definitions mirror the C source function by function and keep
its names.  The file lists all definitions first and all theorems after.
-/

namespace Sshp

/-! ## Definitions: join mode capture (`process_data_join`, `read_active_fd`) -/

/-- One chunk of `process_data_join` (sshp.c:928-954).  The buffer is the
list of bytes stored so far (each C store `buffer[offset] = c; offset++`
appends, so `offset` is the list length).  A byte is stored while
`offset < max_output_length`; at `offset == max_line_length` a nul is
stored instead (the C code compares against `max_line_length` here); any
other byte hits the `break` that abandons the rest of the chunk. -/
def process_data_join (max_output_length max_line_length : Nat) :
    List Nat → List Nat → List Nat
  | st, [] => st
  | st, c :: rest =>
    if st.length < max_output_length then
      process_data_join max_output_length max_line_length (st ++ [c]) rest
    else if st.length = max_line_length then
      process_data_join max_output_length max_line_length (st ++ [0]) rest
    else
      st

/-- EOF handling for a join-mode stream (sshp.c:1015-1023): if the offset is
still within `max_output_length`, a terminating nul is stored; the buffer
then becomes the child's captured output. -/
def read_active_fd_eof_join (max_output_length : Nat) (st : List Nat) : List Nat :=
  if st.length ≤ max_output_length then st ++ [0] else st

/-- Captured output of a join-mode stream after a sequence of read chunks
followed by EOF. -/
def join_capture (max_output_length max_line_length : Nat)
    (chunks : List (List Nat)) : List Nat :=
  read_active_fd_eof_join max_output_length
    (chunks.foldl (process_data_join max_output_length max_line_length) [])

/-! ## Definitions: join mode aggregation (`join_mode_finish`) -/

/-- The bytes of a captured buffer up to its first nul: what `strcmp` and
`printf("%s", ...)` see of a nul-terminated capture buffer. -/
def cstr (l : List Nat) : List Nat :=
  l.takeWhile (fun c => c ≠ 0)

/-- The inner loop of `join_mode_finish` (sshp.c:1092-1104): walking the
hosts after `h1` in roster order, every not-yet-assigned host whose output
compares `strcmp`-equal to `h1`'s output receives `h1`'s class index.
The two parallel lists are the outputs and the assignment states
(`output_idx`, `none` standing for the initial `-1`) of the remaining
hosts. -/
def join_mode_inner (o : List Nat) (idx : Nat) :
    List (List Nat) → List (Option Nat) → List (Option Nat)
  | [], st => st
  | _ :: _, [] => []
  | o2 :: os, s :: st =>
    (if s = none ∧ cstr o2 = cstr o then some idx else s) ::
      join_mode_inner o idx os st

/-- The outer loop of `join_mode_finish` (sshp.c:1082-1108): walk the roster;
a host already holding a class index is skipped; otherwise it receives the
next fresh index, which is also propagated to later equal-output hosts by
the inner loop. -/
def join_mode_finish_aux :
    List (List Nat) → List (Option Nat) → Nat → List (Option Nat)
  | [], _, _ => []
  | _ :: _, [], _ => []
  | o :: os, s :: st, idx =>
    match s with
    | some k => some k :: join_mode_finish_aux os st idx
    | none =>
      some idx :: join_mode_finish_aux os (join_mode_inner o idx os st) (idx + 1)

/-- Class assignment computed by `join_mode_finish` over the roster's
captured outputs, every host starting unassigned (`output_idx = -1`). -/
def join_mode_finish_assign (outs : List (List Nat)) : List (Option Nat) :=
  join_mode_finish_aux outs (outs.map fun _ => none) 0

/-- Specification-side helper: the distinct values of `l` in first-seen
order, appended after the already-seen values `seen`. -/
def first_seen_acc : List (List Nat) → List (List Nat) → List (List Nat)
  | seen, [] => seen
  | seen, c :: cs =>
    if c ∈ seen then first_seen_acc seen cs
    else first_seen_acc (seen ++ [c]) cs

/-- Specification-side helper: position of the first occurrence of `c`. -/
def rank (c : List Nat) : List (List Nat) → Nat
  | [] => 0
  | d :: ds => if d = c then 0 else rank c ds + 1

/-- Assignment state matching "all outputs whose string is in `seen` hold
its rank there; all others are unassigned". -/
def opt_idx (seen : List (List Nat)) (c : List Nat) : Option Nat :=
  if c ∈ seen then some (rank c seen) else none

/-- The member walk of the report loop of `join_mode_finish`
(sshp.c:1120-1127): for class `i`, the whole roster is walked in order and
every host whose `output_idx` differs from `i` is skipped, so the members
printed are the roster positions assigned `i`, in roster order.  `p` is the
roster position of the head of the remaining assignment list. -/
def join_mode_members_from (i : Nat) : Nat → List (Option Nat) → List Nat
  | _, [] => []
  | p, s :: st =>
    (if s = some i then [p] else []) ++ join_mode_members_from i (p + 1) st

/-- Members of class `i` as enumerated by `join_mode_finish` over the
roster's captured outputs. -/
def join_mode_members (outs : List (List Nat)) (i : Nat) : List Nat :=
  join_mode_members_from i 0 (join_mode_finish_assign outs)

/-! ## Definitions: line-by-line mode (`process_data_line_by_line`) -/

/-- The storing half of one `process_data_line_by_line` input byte
(sshp.c:860-871).  Returns the new buffer and the `(index, byte)` stores
performed: a data byte is stored at the current offset while
`offset < max_line_length`; at `offset == max_line_length` a newline is
injected instead; past that the byte is dropped. -/
def line_store (max_line_length : Nat) (buf : List Nat) (c : Nat) :
    List Nat × List (Nat × Nat) :=
  if buf.length < max_line_length then (buf ++ [c], [(buf.length, c)])
  else if buf.length = max_line_length then (buf ++ [10], [(buf.length, 10)])
  else (buf, [])

/-- One input byte of `process_data_line_by_line` (sshp.c:852-883): the
store step, then, when the input byte is a newline, the terminating nul is
stored at the current offset and the buffered line is printed, resetting
the offset to zero.  Returns the new buffer, the stores and the emitted
lines (at most one). -/
def process_line_byte (max_line_length : Nat) (buf : List Nat) (c : Nat) :
    List Nat × List (Nat × Nat) × List (List Nat) :=
  let s := line_store max_line_length buf c
  if c = 10 then
    ([], s.2 ++ [(s.1.length, 0)], [s.1])
  else
    (s.1, s.2, [])

/-- One chunk of `process_data_line_by_line` (sshp.c:852-883): the bytes are
processed in order, accumulating buffer stores and emitted lines. -/
def process_data_line_by_line (max_line_length : Nat) :
    List Nat → List Nat → List Nat × List (Nat × Nat) × List (List Nat)
  | buf, [] => (buf, [], [])
  | buf, c :: cs =>
    let r := process_line_byte max_line_length buf c
    let rest := process_data_line_by_line max_line_length r.1 cs
    (rest.1, r.2.1 ++ rest.2.1, r.2.2 ++ rest.2.2)

/-- EOF handling for a line-by-line stream (sshp.c:994-1011): nothing for an
empty buffer; otherwise a newline is stored at the offset if the last
buffered byte is not one, then the terminating nul is stored and the
remaining line is printed. -/
def read_active_fd_eof_line (buf : List Nat) :
    List (Nat × Nat) × List (List Nat) :=
  if buf.length = 0 then ([], [])
  else if buf.getLast? = some 10 then ([(buf.length, 0)], [buf])
  else ([(buf.length, 10), ((buf ++ [10]).length, 0)], [buf ++ [10]])

/-- A sequence of line-by-line chunk dispatches from a given buffer state. -/
def lbl_chunks (max_line_length : Nat) :
    List Nat → List (List Nat) → List Nat × List (Nat × Nat) × List (List Nat)
  | buf, [] => (buf, [], [])
  | buf, ch :: chs =>
    let r := process_data_line_by_line max_line_length buf ch
    let rest := lbl_chunks max_line_length r.1 chs
    (rest.1, r.2.1 ++ rest.2.1, r.2.2 ++ rest.2.2)

/-- A whole line-by-line stream: chunk dispatches from the empty buffer
followed by the EOF finalisation.  Returns all buffer stores and all
emitted lines. -/
def lbl_run (max_line_length : Nat) (chunks : List (List Nat)) :
    List (Nat × Nat) × List (List Nat) :=
  let r := lbl_chunks max_line_length [] chunks
  let e := read_active_fd_eof_line r.1
  (r.2.1 ++ e.1, r.2.2 ++ e.2)

/-- `print_line_buffer` (sshp.c:831-846) with colors off: the optional
`[host] ` header (bytes `91`/`93` are the brackets, `32` the space)
followed by the buffered line. -/
def print_line_buffer (anonymous : Bool) (host line : List Nat) : List Nat :=
  (if anonymous then [] else [91] ++ host ++ [93, 32]) ++ line

/-- All bytes printed for one stream over a whole line-by-line run. -/
def lbl_rendered (max_line_length : Nat) (anonymous : Bool) (host : List Nat)
    (chunks : List (List Nat)) : List Nat :=
  ((lbl_run max_line_length chunks).2.map (print_line_buffer anonymous host)).flatten

/-- Invariant of the line buffer: its fill never exceeds
`max_line_length + 1`, and at the ceiling its last byte is the injected
newline. -/
def LblInv (max_line_length : Nat) (buf : List Nat) : Prop :=
  buf.length ≤ max_line_length + 1 ∧
    (buf.length = max_line_length + 1 → buf.getLast? = some 10)

/-! ## Definitions: group mode (`process_data_group`) -/

/-- Output events of group mode: the separating newline, the host header
line, and a chunk write (hosts identified by roster position). -/
inductive GroupEv where
  | sep : GroupEv
  | header : Nat → GroupEv
  | chunk : Nat → List Nat → GroupEv
deriving DecidableEq

/-- The state `process_data_group` keeps across calls: the `last_host`
static (sshp.c:896) and the process-wide `newline_printed` latch
(sshp.c:136). -/
structure GroupState where
  last_host : Option Nat
  newline_printed : Bool
deriving DecidableEq

/-- One chunk dispatch of `process_data_group` (sshp.c:888-923).  When the
owning host differs from the previous emitter, a newline is first emitted
if `newline_printed` is false, then the host header on its own line unless
anonymous; the chunk bytes are then written and the latch records whether
the chunk's last byte is a newline (color framing is the empty string with
color off and is not an event). -/
def process_data_group (anonymous : Bool) (st : GroupState) (h : Nat)
    (buf : List Nat) : GroupState × List GroupEv :=
  let pre :=
    if st.last_host ≠ some h then
      (if !st.newline_printed then [GroupEv.sep] else []) ++
        (if !anonymous then [GroupEv.header h] else [])
    else []
  (⟨some h, decide (buf.getLast? = some 10)⟩, pre ++ [GroupEv.chunk h buf])

/-- Group-mode run over a dispatch sequence from a given state. -/
def group_run (anonymous : Bool) :
    GroupState → List (Nat × List Nat) → List GroupEv
  | _, [] => []
  | st, (h, b) :: ds =>
    let r := process_data_group anonymous st h b
    r.2 ++ group_run anonymous r.1 ds

/-- Initial group-mode state: no previous emitter, `newline_printed`
initially true (sshp.c:136). -/
def group_init : GroupState :=
  ⟨none, true⟩

/-- The group state determined by the directly preceding dispatch. -/
def group_state_of : Option (Nat × List Nat) → GroupState
  | none => group_init
  | some (h, b) => ⟨some h, decide (b.getLast? = some 10)⟩

/-- Specification-side recharacterization of a group-mode run purely in
terms of the previous dispatch: on a host change (or the first dispatch) a
separating newline appears iff the previous chunk did not end in a newline,
then the header unless anonymous, then the chunk. -/
def group_spec (anonymous : Bool) :
    Option (Nat × List Nat) → List (Nat × List Nat) → List GroupEv
  | _, [] => []
  | prev, (h, b) :: ds =>
    (match prev with
     | none => if !anonymous then [GroupEv.header h] else []
     | some (h2, b2) =>
       if h2 = h then []
       else
         (if b2.getLast? = some 10 then [] else [GroupEv.sep]) ++
           (if !anonymous then [GroupEv.header h] else [])) ++
      ([GroupEv.chunk h b] ++ group_spec anonymous (some (h, b)) ds)

/-- Number of header events for host `h` in an event list. -/
def header_count (h : Nat) (evs : List GroupEv) : Nat :=
  (evs.filter fun e => decide (e = GroupEv.header h)).length

/-- Number of maximal contiguous runs of dispatches of host `h`, given the
host of the directly preceding dispatch. -/
def run_count (h : Nat) : Option Nat → List (Nat × List Nat) → Nat
  | _, [] => 0
  | prev, (h2, _) :: ds =>
    (if h2 = h ∧ prev ≠ some h then 1 else 0) + run_count h (some h2) ds

/-! ## Definitions: scheduler main loop (`main_loop`) -/

/-- Scheduler state of `main_loop` (sshp.c:1154-1219): hosts not yet
admitted (the cursor's distance to the roster end), children admitted but
not reaped (`outstanding`), and children reaped (`done`). -/
structure SchedState where
  remaining : Nat
  outstanding : Nat
  done : Nat
deriving DecidableEq

/-- The admission loop (sshp.c:1173-1185): while the cursor is live and
`outstanding < max_jobs`, spawn the cursor's child, register its fds,
increment `outstanding` and advance the cursor. -/
def main_loop_admission (max_jobs : Nat) : Nat → Nat → Nat × Nat
  | 0, outstanding => (0, outstanding)
  | r + 1, outstanding =>
    if outstanding < max_jobs then main_loop_admission max_jobs r (outstanding + 1)
    else (r + 1, outstanding)

/-- One iteration of the main loop: admission up to the cap, then one
`epoll_wait` batch during which `k` children are drained to EOF and reaped
(each reap decrements `outstanding` and increments `done`,
sshp.c:1206-1210); `k` cannot exceed the number of running children. -/
inductive MainLoopStep (max_jobs : Nat) : SchedState → SchedState → Prop where
  | iter (s : SchedState) (k : Nat)
      (hk : k ≤ (main_loop_admission max_jobs s.remaining s.outstanding).2) :
      MainLoopStep max_jobs s
        ⟨(main_loop_admission max_jobs s.remaining s.outstanding).1,
          (main_loop_admission max_jobs s.remaining s.outstanding).2 - k,
          s.done + k⟩

/-- Reachability along main-loop iterations. -/
def MainLoopReach (max_jobs : Nat) : SchedState → SchedState → Prop :=
  Relation.ReflTransGen (MainLoopStep max_jobs)

/-- Loop entry state for `n` hosts: cursor at the roster head, nothing
admitted, nothing done. -/
def main_loop_init (n : Nat) : SchedState :=
  ⟨n, 0, 0⟩

/-! ## Definitions: child stream EOF and reaping -/

/-- The descriptor fields of a `ChildProcess` (sshp.c:91-101) with the
source's sentinel encoding (`-1` not started, `-2` closed, `≥ 0` an open
descriptor), plus a count of how many times the child has been waited on
(`wait_for_child`). -/
structure ChildProc where
  stdout_fd : Int
  stderr_fd : Int
  stdio_fd : Int
  reaps : Nat
deriving DecidableEq

/-- `child_process_stdio_done` (sshp.c:363-370). -/
def child_process_stdio_done (cp : ChildProc) : Bool :=
  (cp.stdout_fd == -2 && cp.stderr_fd == -2) || cp.stdio_fd == -2

/-- Which stream a readiness event belongs to (`enum PipeType`). -/
inductive StreamSel where
  | out : StreamSel
  | err : StreamSel
  | stdio : StreamSel
deriving DecidableEq

/-- The fd field selected by a stream, as in `read_active_fd`
(sshp.c:972-984). -/
def stream_fd (cp : ChildProc) : StreamSel → Int
  | StreamSel.out => cp.stdout_fd
  | StreamSel.err => cp.stderr_fd
  | StreamSel.stdio => cp.stdio_fd

/-- Marking a stream closed: `*fd = -2` (sshp.c:992). -/
def set_closed (cp : ChildProc) : StreamSel → ChildProc
  | StreamSel.out => { cp with stdout_fd := -2 }
  | StreamSel.err => { cp with stderr_fd := -2 }
  | StreamSel.stdio => { cp with stdio_fd := -2 }

/-- EOF handling of one event in the main loop (sshp.c:1203-1210): when
`read_active_fd` reports the stream closed, the fd has been marked `-2`,
and if `child_process_stdio_done` now holds the child is reaped by
`wait_for_child` (sshp.c:785-824). -/
def main_loop_on_close (cp : ChildProc) (s : StreamSel) : ChildProc :=
  let cp2 := set_closed cp s
  if child_process_stdio_done cp2 then { cp2 with reaps := cp2.reaps + 1 }
  else cp2

/-- One main-loop event for a child: either a registered (open) stream
reaches EOF, or a read would block and nothing changes.  A closed stream is
deregistered from epoll, so no further event can close it again. -/
inductive ChildEvStep : ChildProc → ChildProc → Prop where
  | close (cp : ChildProc) (s : StreamSel) (h : 0 ≤ stream_fd cp s) :
      ChildEvStep cp (main_loop_on_close cp s)
  | wouldblock (cp : ChildProc) : ChildEvStep cp cp

/-- Reachability along per-child events. -/
def ChildReach : ChildProc → ChildProc → Prop :=
  Relation.ReflTransGen ChildEvStep

/-- Child state right after `spawn_child_process` in line-by-line or group
mode (sshp.c:728-733): separate stdout and stderr pipes, `stdio_fd`
unused. -/
def spawn_sep (a b : Int) : ChildProc :=
  ⟨a, b, -1, 0⟩

/-- Child state right after `spawn_child_process` in join mode
(sshp.c:724-726): one merged stdio pipe. -/
def spawn_join (c : Int) : ChildProc :=
  ⟨-1, -1, c, 0⟩

/-! ## Definitions: join-mode progress line -/

/-- `enum ProgMode` (sshp.c:69-73). -/
inductive ProgMode where
  | line_by_line : ProgMode
  | group : ProgMode
  | join : ProgMode
deriving DecidableEq

/-- Progress output events: one repaint of
`[sshp] finished <done>/<total>` ended by a carriage return, or a plain
newline. -/
inductive ProgressEv where
  | paint : Nat → Nat → ProgressEv
  | newline : ProgressEv
deriving DecidableEq

/-- `print_progress_line(done, num_hosts)` (sshp.c:1141-1149). -/
def print_progress_line (done num_hosts : Nat) : ProgressEv :=
  ProgressEv.paint done num_hosts

/-- The progress output of `main_loop` (sshp.c:1154-1219) over a whole run
in which all `num_hosts` children are reaped: the initial paint happens
only in join mode with stdout a tty (sshp.c:1162-1164); after each reap the
line is repainted whenever the mode is join — with no tty check
(sshp.c:1210-1215) — and a final newline follows when `done` reaches
`num_hosts`. -/
def main_loop_progress (mode : ProgMode) (stdout_isatty : Bool)
    (num_hosts : Nat) : List ProgressEv :=
  (if mode = ProgMode.join ∧ stdout_isatty then
      [print_progress_line 0 num_hosts]
    else []) ++
    ((List.range num_hosts).map fun i =>
      if mode = ProgMode.join then
        [print_progress_line (i + 1) num_hosts] ++
          (if i + 1 = num_hosts then [ProgressEv.newline] else [])
      else []).flatten

/-! ## Definitions: exit codes of failure paths -/

/-- `HOST_NAME_MAX` from `limits.h` on Linux. -/
def HOST_NAME_MAX : Nat := 64

/-- `MAX_ARGS` (sshp.c:37). -/
def MAX_ARGS : Nat := 256

/-- `fgets(buf, n, f)` on a byte stream: at most `n - 1` bytes, stopping
after a newline. -/
def fgets_read (n : Nat) (stream : List Nat) : List Nat :=
  (stream.take (n - 1)).takeWhile (fun c => c ≠ 10) ++
    (if 10 ∈ stream.take (n - 1) then [10] else [])

/-- Handling of one roster line by `parse_hosts` (sshp.c:1234-1254) given
an `fgets` result: comment, space-led, empty and blank lines are skipped;
otherwise, if no newline is present the line was too long for the
`HOST_NAME_MAX` buffer and the program aborts with exit code 2; else the
newline is replaced by a terminator and the hostname is kept. -/
def parse_hosts_line : List Nat → Except Nat (Option (List Nat))
  | [] => Except.ok none
  | c :: rest =>
    if c = 35 ∨ c = 32 ∨ c = 10 ∨ c = 0 then Except.ok none
    else if 10 ∈ c :: rest then
      Except.ok (some ((c :: rest).takeWhile fun b => b ≠ 10))
    else Except.error 2

/-- One `push_arguments` store (sshp.c:528-546): pushing with
`idx >= MAX_ARGS - 2` aborts with exit code 2. -/
def push_arguments_step (idx : Nat) : Except Nat Nat :=
  if MAX_ARGS - 2 ≤ idx then Except.error 2 else Except.ok (idx + 1)

/-- The filling loop of `build_ssh_command` (sshp.c:615-654): each argument
is stored at `idx`, which is incremented and bound-checked against the
command buffer size, aborting with exit code 2 when it reaches `size`. -/
def build_ssh_command_fill : List (List Nat) → Nat → Nat → Except Nat Nat
  | [], idx, _ => Except.ok idx
  | _ :: rest, idx, size =>
    if size ≤ idx + 1 then Except.error 2
    else build_ssh_command_fill rest (idx + 1) size

/-- `safe_malloc` (sshp.c:321-336): allocation failure aborts with exit
code 3. -/
def safe_malloc (alloc_ok : Bool) : Except Nat Unit :=
  if alloc_ok then Except.ok () else Except.error 3

/-! ## Theorems: claim C1 (join-mode capture) -/

theorem process_data_join_stuck {mo ml : Nat} {st : List Nat}
    (h1 : ¬ st.length < mo) (h2 : st.length ≠ ml) (s : List Nat) :
    process_data_join mo ml st s = st := by
  cases s with
  | nil => rfl
  | cons c rest => simp [process_data_join, h1, h2]

theorem process_data_join_append (mo ml : Nat) (a b st : List Nat) :
    process_data_join mo ml st (a ++ b) =
      process_data_join mo ml (process_data_join mo ml st a) b := by
  induction a generalizing st with
  | nil => rfl
  | cons c rest ih =>
    simp only [List.cons_append, process_data_join, List.append_eq]
    by_cases h1 : st.length < mo
    · rw [if_pos h1, if_pos h1, ih]
    · by_cases h2 : st.length = ml
      · rw [if_neg h1, if_neg h1, if_pos h2, if_pos h2, ih]
      · rw [if_neg h1, if_neg h1, if_neg h2, if_neg h2,
          process_data_join_stuck h1 h2 b]

theorem process_data_join_spec (mo ml : Nat) (s st : List Nat)
    (h : st.length ≤ mo) :
    process_data_join mo ml st s =
      if st.length + s.length ≤ mo then st ++ s
      else (st ++ s.take (mo - st.length)) ++ (if mo = ml then [0] else []) := by
  induction s generalizing st with
  | nil =>
    simp [process_data_join, h]
  | cons c rest ih =>
    by_cases h1 : st.length < mo
    · have hlt : (st ++ [c]).length ≤ mo := by
        simp only [List.length_append, List.length_cons, List.length_nil]
        omega
      rw [process_data_join, if_pos h1, ih _ hlt]
      have htake : (c :: rest).take (mo - st.length) =
          c :: rest.take (mo - st.length - 1) := by
        obtain ⟨k, hk⟩ : ∃ k, mo - st.length = k + 1 :=
          ⟨mo - st.length - 1, by omega⟩
        rw [hk, List.take_succ_cons]
        simp
      by_cases h2 : st.length + (c :: rest).length ≤ mo
      · have : (st ++ [c]).length + rest.length ≤ mo := by
          simp only [List.length_append, List.length_cons, List.length_nil] at *
          omega
        rw [if_pos this, if_pos h2]
        simp
      · have : ¬ (st ++ [c]).length + rest.length ≤ mo := by
          simp only [List.length_append, List.length_cons, List.length_nil] at *
          omega
        rw [if_neg this, if_neg h2, htake]
        have harith : mo - (st ++ [c]).length = mo - st.length - 1 := by
          simp only [List.length_append, List.length_cons, List.length_nil]
          omega
        rw [harith]
        simp
    · have heq : st.length = mo := by omega
      by_cases h2 : st.length = ml
      · have hml : mo = ml := by omega
        rw [process_data_join, if_neg h1, if_pos h2]
        have hstuck : ¬ (st ++ [0]).length < mo := by
          simp only [List.length_append, List.length_cons, List.length_nil]
          omega
        have hstuck2 : (st ++ [0]).length ≠ ml := by
          simp only [List.length_append, List.length_cons, List.length_nil]
          omega
        rw [process_data_join_stuck hstuck hstuck2]
        have : ¬ st.length + (c :: rest).length ≤ mo := by
          simp only [List.length_cons]
          omega
        rw [if_neg this, if_pos hml]
        have : mo - st.length = 0 := by omega
        simp [this]
      · rw [process_data_join, if_neg h1, if_neg h2]
        have hml : ¬ mo = ml := by omega
        have : ¬ st.length + (c :: rest).length ≤ mo := by
          simp only [List.length_cons]
          omega
        rw [if_neg this, if_neg hml]
        have : mo - st.length = 0 := by omega
        simp [this]

theorem join_capture_foldl (mo ml : Nat) (chunks : List (List Nat))
    (st : List Nat) :
    chunks.foldl (process_data_join mo ml) st =
      process_data_join mo ml st chunks.flatten := by
  induction chunks generalizing st with
  | nil => simp [process_data_join]
  | cons a rest ih =>
    simp only [List.foldl_cons, List.flatten_cons, process_data_join_append]
    exact ih _

/-- Claim C1.  In join mode, for every max-output / max-line configuration
and every sequence of read chunks, the captured output buffer is exactly
the first `max_output_length` bytes of the concatenated stream (a shorter
stream in full) followed by a terminating nul; every byte past the cap is
discarded.  In particular a stream of exactly `max_output_length` bytes is
captured in full and one of `max_output_length + 1` bytes is truncated to
`max_output_length` bytes. -/
theorem claim_C1_join_capture (mo ml : Nat) (chunks : List (List Nat)) :
    join_capture mo ml chunks = chunks.flatten.take mo ++ [0] := by
  unfold join_capture
  rw [join_capture_foldl, process_data_join_spec mo ml _ [] (by simp)]
  simp only [List.nil_append, List.length_nil, Nat.zero_add, Nat.sub_zero]
  by_cases h : chunks.flatten.length ≤ mo
  · rw [if_pos h]
    unfold read_active_fd_eof_join
    rw [if_pos h, List.take_of_length_le h]
  · rw [if_neg h]
    by_cases hml : mo = ml
    · rw [if_pos hml]
      unfold read_active_fd_eof_join
      have hlen : (chunks.flatten.take mo ++ [0]).length = mo + 1 := by
        simp only [List.length_append, List.length_take, List.length_cons,
          List.length_nil]
        omega
      rw [if_neg (by omega)]
    · rw [if_neg hml]
      unfold read_active_fd_eof_join
      have hlen : (chunks.flatten.take mo ++ []).length = mo := by
        simp only [List.length_append, List.length_take, List.length_nil]
        omega
      rw [if_pos (by omega)]
      simp

/-! ## Theorems: line-by-line invariants and claims C2, C7, C10 -/

theorem lbl_inv_nil (ml : Nat) : LblInv ml [] := by
  constructor
  · simp
  · intro h
    simp at h

theorem line_store_props (ml : Nat) (buf : List Nat) (c : Nat)
    (hinv : LblInv ml buf) :
    LblInv ml (line_store ml buf c).1 ∧
      (∀ w ∈ (line_store ml buf c).2, w.1 ≤ ml) ∧
      (c = 10 → (line_store ml buf c).1.getLast? = some 10) := by
  obtain ⟨hlen, hlast⟩ := hinv
  unfold line_store
  by_cases h1 : buf.length < ml
  · rw [if_pos h1]
    refine ⟨⟨?_, ?_⟩, ?_, ?_⟩
    · simp only [List.length_append, List.length_cons, List.length_nil]
      omega
    · intro habs
      simp only [List.length_append, List.length_cons, List.length_nil] at habs
      omega
    · intro w hw
      simp only [List.mem_singleton] at hw
      subst hw
      omega
    · intro hc
      subst hc
      simp [List.getLast?_concat]
  · by_cases h2 : buf.length = ml
    · rw [if_neg h1, if_pos h2]
      refine ⟨⟨?_, ?_⟩, ?_, ?_⟩
      · simp only [List.length_append, List.length_cons, List.length_nil]
        omega
      · intro _
        simp [List.getLast?_concat]
      · intro w hw
        simp only [List.mem_singleton] at hw
        subst hw
        omega
      · intro _
        simp [List.getLast?_concat]
    · rw [if_neg h1, if_neg h2]
      have hceil : buf.length = ml + 1 := by omega
      refine ⟨⟨hlen, hlast⟩, ?_, ?_⟩
      · intro w hw
        simp at hw
      · intro _
        exact hlast hceil

theorem process_line_byte_props (ml : Nat) (buf : List Nat) (c : Nat)
    (hinv : LblInv ml buf) :
    LblInv ml (process_line_byte ml buf c).1 ∧
      (∀ w ∈ (process_line_byte ml buf c).2.1, w.1 < ml + 2) ∧
      (∀ l ∈ (process_line_byte ml buf c).2.2, l.getLast? = some 10) := by
  obtain ⟨hsinv, hsw, hs10⟩ := line_store_props ml buf c hinv
  unfold process_line_byte
  by_cases hc : c = 10
  · rw [if_pos hc]
    refine ⟨lbl_inv_nil ml, ?_, ?_⟩
    · intro w hw
      simp only [List.mem_append, List.mem_singleton] at hw
      rcases hw with hw | hw
      · have := hsw w hw
        omega
      · subst hw
        have h := hsinv.1
        show (line_store ml buf c).1.length < ml + 2
        omega
    · intro l hl
      simp only [List.mem_singleton] at hl
      subst hl
      exact hs10 hc
  · rw [if_neg hc]
    refine ⟨hsinv, ?_, ?_⟩
    · intro w hw
      have := hsw w hw
      omega
    · intro l hl
      simp at hl

theorem process_data_line_by_line_props (ml : Nat) (ch : List Nat) :
    ∀ buf : List Nat, LblInv ml buf →
      LblInv ml (process_data_line_by_line ml buf ch).1 ∧
        (∀ w ∈ (process_data_line_by_line ml buf ch).2.1, w.1 < ml + 2) ∧
        (∀ l ∈ (process_data_line_by_line ml buf ch).2.2, l.getLast? = some 10) := by
  induction ch with
  | nil =>
    intro buf hinv
    refine ⟨hinv, ?_, ?_⟩ <;> simp [process_data_line_by_line]
  | cons c cs ih =>
    intro buf hinv
    obtain ⟨hinv1, hw1, hl1⟩ := process_line_byte_props ml buf c hinv
    obtain ⟨hinv2, hw2, hl2⟩ := ih _ hinv1
    unfold process_data_line_by_line
    refine ⟨hinv2, ?_, ?_⟩
    · intro w hw
      simp only [List.mem_append] at hw
      rcases hw with hw | hw
      · exact hw1 w hw
      · exact hw2 w hw
    · intro l hl
      simp only [List.mem_append] at hl
      rcases hl with hl | hl
      · exact hl1 l hl
      · exact hl2 l hl

theorem lbl_chunks_props (ml : Nat) (chunks : List (List Nat)) :
    ∀ buf : List Nat, LblInv ml buf →
      LblInv ml (lbl_chunks ml buf chunks).1 ∧
        (∀ w ∈ (lbl_chunks ml buf chunks).2.1, w.1 < ml + 2) ∧
        (∀ l ∈ (lbl_chunks ml buf chunks).2.2, l.getLast? = some 10) := by
  induction chunks with
  | nil =>
    intro buf hinv
    refine ⟨hinv, ?_, ?_⟩ <;> simp [lbl_chunks]
  | cons ch chs ih =>
    intro buf hinv
    obtain ⟨hinv1, hw1, hl1⟩ := process_data_line_by_line_props ml ch buf hinv
    obtain ⟨hinv2, hw2, hl2⟩ := ih _ hinv1
    unfold lbl_chunks
    refine ⟨hinv2, ?_, ?_⟩
    · intro w hw
      simp only [List.mem_append] at hw
      rcases hw with hw | hw
      · exact hw1 w hw
      · exact hw2 w hw
    · intro l hl
      simp only [List.mem_append] at hl
      rcases hl with hl | hl
      · exact hl1 l hl
      · exact hl2 l hl

theorem read_active_fd_eof_line_props (ml : Nat) (buf : List Nat)
    (hinv : LblInv ml buf) :
    (∀ w ∈ (read_active_fd_eof_line buf).1, w.1 < ml + 2) ∧
      (∀ l ∈ (read_active_fd_eof_line buf).2, l.getLast? = some 10) := by
  obtain ⟨hlen, hlast⟩ := hinv
  unfold read_active_fd_eof_line
  by_cases h0 : buf.length = 0
  · rw [if_pos h0]
    exact ⟨by intro w hw; simp at hw, by intro l hl; simp at hl⟩
  · rw [if_neg h0]
    by_cases hnl : buf.getLast? = some 10
    · rw [if_pos hnl]
      refine ⟨?_, ?_⟩
      · intro w hw
        simp only [List.mem_singleton] at hw
        subst hw
        show buf.length < ml + 2
        omega
      · intro l hl
        simp only [List.mem_singleton] at hl
        subst hl
        exact hnl
    · rw [if_neg hnl]
      have hne : buf.length ≠ ml + 1 := fun habs => hnl (hlast habs)
      refine ⟨?_, ?_⟩
      · intro w hw
        simp only [List.mem_cons, List.mem_singleton, List.not_mem_nil,
          or_false] at hw
        rcases hw with hw | hw
        · subst hw
          show buf.length < ml + 2
          omega
        · subst hw
          show (buf ++ [10]).length < ml + 2
          simp only [List.length_append, List.length_cons, List.length_nil]
          omega
      · intro l hl
        simp only [List.mem_singleton] at hl
        subst hl
        simp [List.getLast?_concat]

/-- Claim C7.  In line-by-line mode every printed line ends with a newline:
over any sequence of chunk dispatches followed by the EOF finalisation,
every emitted line's last byte is `10`; in particular on EOF with a
non-empty buffer whose last byte is not a newline, a newline is appended
before the line is emitted. -/
theorem claim_C7_lines_end_newline (ml : Nat) (chunks : List (List Nat)) :
    ((lbl_run ml chunks).2).all (fun l => decide (l.getLast? = some 10)) = true := by
  rw [List.all_eq_true]
  intro l hl
  rw [decide_eq_true_eq]
  unfold lbl_run at hl
  simp only [List.mem_append] at hl
  obtain ⟨hinv, _, hlines⟩ := lbl_chunks_props ml chunks [] (lbl_inv_nil ml)
  rcases hl with hl | hl
  · exact hlines l hl
  · exact (read_active_fd_eof_line_props ml _ hinv).2 l hl

/-- Claim C10.  In line-by-line mode, over any sequence of chunk dispatches
and the EOF finalisation, the buffer fill never exceeds
`max_line_length + 1` and every store into the line buffer (data byte,
injected newline, or terminating nul) is at an index strictly below the
allocated capacity `max_line_length + 2`. -/
theorem claim_C10_line_buffer_bounds (ml : Nat) (chunks : List (List Nat)) :
    (lbl_chunks ml [] chunks).1.length ≤ ml + 1 ∧
      ((lbl_run ml chunks).1).all (fun w => decide (w.1 < ml + 2)) = true := by
  obtain ⟨hinv, hwrites, _⟩ := lbl_chunks_props ml chunks [] (lbl_inv_nil ml)
  refine ⟨hinv.1, ?_⟩
  rw [List.all_eq_true]
  intro w hw
  rw [decide_eq_true_eq]
  unfold lbl_run at hw
  simp only [List.mem_append] at hw
  rcases hw with hw | hw
  · exact hwrites w hw
  · exact (read_active_fd_eof_line_props ml _ hinv).1 w hw

/-- Claim C2 counterexample.  With `max_line_length = 4`, host name `h` and
the child emitting `abcdef\n`, line-by-line mode does not emit
`[h] abcd\n` followed by `[h] ef\n` (bytes `101 102` — `ef` — are
dropped): it emits only `[h] abcd\n`. -/
theorem claim_C2_counterexample :
    lbl_rendered 4 false [104] [[97, 98, 99, 100, 101, 102, 10]] =
        [91, 104, 93, 32, 97, 98, 99, 100, 10] ∧
      lbl_rendered 4 false [104] [[97, 98, 99, 100, 101, 102, 10]] ≠
        [91, 104, 93, 32, 97, 98, 99, 100, 10] ++
          [91, 104, 93, 32, 101, 102, 10] := by
  constructor
  · rfl
  · decide

/-- Claim C2 as amended.  In line-by-line mode with `max_line_length = 4`, a
host whose child emits `abcdef\n` produces exactly one printed line,
`[h] abcd\n`: when the fill reaches `max_line_length` a newline is
injected, and the following bytes (`ef`) are discarded until the next
newline byte of the input, which emits the truncated line; the overflow
bytes are lost, not re-emitted as a second line. -/
theorem claim_C2_overlong_line :
    (lbl_run 4 [[97, 98, 99, 100, 101, 102, 10]]).2 =
        [[97, 98, 99, 100, 10]] ∧
      lbl_rendered 4 false [104] [[97, 98, 99, 100, 101, 102, 10]] =
        [91, 104, 93, 32, 97, 98, 99, 100, 10] := by
  constructor
  · rfl
  · rfl

/-! ## Theorems: join aggregation (claim C3) -/

theorem rank_append_left {c : List Nat} {s : List (List Nat)}
    (h : c ∈ s) (t : List (List Nat)) : rank c (s ++ t) = rank c s := by
  induction s with
  | nil => simp at h
  | cons d ds ih =>
    by_cases hd : d = c
    · simp [rank, hd]
    · have hc : c ∈ ds := by
        rcases List.mem_cons.1 h with h | h
        · exact absurd h.symm hd
        · exact h
      simp [rank, hd, ih hc]

theorem rank_append_self {c : List Nat} {s : List (List Nat)}
    (h : c ∉ s) : rank c (s ++ [c]) = s.length := by
  induction s with
  | nil => simp [rank]
  | cons d ds ih =>
    have hd : d ≠ c := fun habs => h (habs ▸ List.mem_cons_self d ds)
    have hds : c ∉ ds := fun habs => h (List.mem_cons_of_mem d habs)
    simp [rank, hd, ih hds]

theorem rank_inj {a b : List Nat} {l : List (List Nat)}
    (ha : a ∈ l) (hb : b ∈ l) (h : rank a l = rank b l) : a = b := by
  induction l with
  | nil => simp at ha
  | cons d ds ih =>
    by_cases hda : d = a
    · by_cases hdb : d = b
      · rw [← hda, hdb]
      · rw [rank, if_pos hda, rank, if_neg hdb] at h
        omega
    · by_cases hdb : d = b
      · rw [rank, if_neg hda, rank, if_pos hdb] at h
        omega
      · rw [rank, if_neg hda, rank, if_neg hdb] at h
        have ha' : a ∈ ds := by
          rcases List.mem_cons.1 ha with h' | h'
          · exact absurd h'.symm hda
          · exact h'
        have hb' : b ∈ ds := by
          rcases List.mem_cons.1 hb with h' | h'
          · exact absurd h'.symm hdb
          · exact h'
        exact ih ha' hb' (by omega)

theorem first_seen_acc_append (l seen : List (List Nat)) :
    ∃ t, first_seen_acc seen l = seen ++ t := by
  induction l generalizing seen with
  | nil => exact ⟨[], by simp [first_seen_acc]⟩
  | cons c cs ih =>
    by_cases hc : c ∈ seen
    · obtain ⟨t, ht⟩ := ih seen
      exact ⟨t, by rw [first_seen_acc, if_pos hc, ht]⟩
    · obtain ⟨t, ht⟩ := ih (seen ++ [c])
      exact ⟨[c] ++ t, by rw [first_seen_acc, if_neg hc, ht, List.append_assoc]⟩

theorem mem_first_seen_acc_left {c : List Nat} {seen : List (List Nat)}
    (h : c ∈ seen) (l : List (List Nat)) : c ∈ first_seen_acc seen l := by
  obtain ⟨t, ht⟩ := first_seen_acc_append l seen
  rw [ht]
  exact List.mem_append_left t h

theorem mem_first_seen_acc {c : List Nat} {l : List (List Nat)}
    (h : c ∈ l) (seen : List (List Nat)) : c ∈ first_seen_acc seen l := by
  induction l generalizing seen with
  | nil => simp at h
  | cons d ds ih =>
    rcases List.mem_cons.1 h with h' | h'
    · subst h'
      by_cases hd : c ∈ seen
      · rw [first_seen_acc, if_pos hd]
        exact mem_first_seen_acc_left hd ds
      · rw [first_seen_acc, if_neg hd]
        exact mem_first_seen_acc_left (List.mem_append_right seen (by simp)) ds
    · by_cases hd : d ∈ seen
      · rw [first_seen_acc, if_pos hd]
        exact ih h' seen
      · rw [first_seen_acc, if_neg hd]
        exact ih h' (seen ++ [d])

theorem rank_first_seen_acc {c : List Nat} {seen : List (List Nat)}
    (h : c ∈ seen) (l : List (List Nat)) :
    rank c (first_seen_acc seen l) = rank c seen := by
  obtain ⟨t, ht⟩ := first_seen_acc_append l seen
  rw [ht, rank_append_left h]

theorem join_mode_inner_spec (o : List Nat) (seen : List (List Nat))
    (hnot : cstr o ∉ seen) (os : List (List Nat)) :
    join_mode_inner o seen.length os (os.map fun o2 => opt_idx seen (cstr o2)) =
      os.map fun o2 => opt_idx (seen ++ [cstr o]) (cstr o2) := by
  induction os with
  | nil => rfl
  | cons o2 os ih =>
    simp only [List.map_cons, join_mode_inner]
    rw [ih]
    congr 1
    by_cases h2 : cstr o2 ∈ seen
    · rw [opt_idx, if_pos h2]
      have : ¬ ((some (rank (cstr o2) seen) : Option Nat) = none ∧
          cstr o2 = cstr o) := by
        intro habs
        exact Option.noConfusion habs.1
      rw [if_neg this, opt_idx, if_pos (List.mem_append_left _ h2),
        rank_append_left h2]
    · rw [opt_idx, if_neg h2]
      by_cases heq : cstr o2 = cstr o
      · rw [if_pos ⟨rfl, heq⟩, opt_idx,
          if_pos (heq ▸ List.mem_append_right seen (by simp)), heq,
          rank_append_self hnot]
      · rw [if_neg (fun habs => heq habs.2), opt_idx, if_neg ?_]
        intro habs
        rcases List.mem_append.1 habs with h | h
        · exact h2 h
        · simp only [List.mem_singleton] at h
          exact heq h

theorem join_mode_finish_aux_spec (os : List (List Nat)) :
    ∀ seen : List (List Nat),
      join_mode_finish_aux os (os.map fun o => opt_idx seen (cstr o))
          seen.length =
        os.map fun o =>
          some (rank (cstr o) (first_seen_acc seen (os.map cstr))) := by
  induction os with
  | nil => intro seen; rfl
  | cons o os ih =>
    intro seen
    simp only [List.map_cons, join_mode_finish_aux]
    by_cases hmem : cstr o ∈ seen
    · rw [show opt_idx seen (cstr o) = some (rank (cstr o) seen) from
        if_pos hmem]
      simp only [first_seen_acc, if_pos hmem]
      rw [ih seen]
      congr 1
      rw [rank_first_seen_acc hmem]
    · rw [show opt_idx seen (cstr o) = none from if_neg hmem]
      simp only [first_seen_acc, if_neg hmem]
      rw [join_mode_inner_spec o seen hmem os]
      have hlen : seen.length + 1 = (seen ++ [cstr o]).length := by simp
      rw [hlen, ih (seen ++ [cstr o])]
      congr 1
      obtain ⟨t, ht⟩ := first_seen_acc_append (os.map cstr) (seen ++ [cstr o])
      rw [ht, rank_append_left (List.mem_append_right seen (by simp)),
        rank_append_self hmem]

theorem join_mode_finish_assign_char (outs : List (List Nat)) :
    join_mode_finish_assign outs =
      outs.map fun o =>
        some (rank (cstr o) (first_seen_acc [] (outs.map cstr))) := by
  unfold join_mode_finish_assign
  have h0 : (outs.map fun _ => (none : Option Nat)) =
      outs.map fun o => opt_idx [] (cstr o) := by
    apply List.map_congr_left
    intro o _
    rw [opt_idx, if_neg (List.not_mem_nil _)]
  rw [h0]
  exact join_mode_finish_aux_spec outs []

theorem join_mode_members_from_ge (i : Nat) (st : List (Option Nat)) :
    ∀ p : Nat, ∀ q ∈ join_mode_members_from i p st, p ≤ q := by
  induction st with
  | nil =>
    intro p q hq
    simp [join_mode_members_from] at hq
  | cons s rest ih =>
    intro p q hq
    simp only [join_mode_members_from, List.mem_append] at hq
    rcases hq with hq | hq
    · by_cases hs : s = some i
      · rw [if_pos hs] at hq
        simp only [List.mem_singleton] at hq
        omega
      · rw [if_neg hs] at hq
        simp at hq
    · have := ih (p + 1) q hq
      omega

theorem join_mode_members_from_sorted (i : Nat) (st : List (Option Nat)) :
    ∀ p : Nat, (join_mode_members_from i p st).Pairwise (· < ·) := by
  induction st with
  | nil =>
    intro p
    simp [join_mode_members_from]
  | cons s rest ih =>
    intro p
    simp only [join_mode_members_from]
    by_cases hs : s = some i
    · rw [if_pos hs]
      simp only [List.singleton_append]
      refine List.Pairwise.cons ?_ (ih (p + 1))
      intro q hq
      have := join_mode_members_from_ge i rest (p + 1) q hq
      omega
    · rw [if_neg hs]
      simpa using ih (p + 1)

theorem join_mode_members_from_mem (i : Nat) (st : List (Option Nat)) :
    ∀ p q : Nat, (q ∈ join_mode_members_from i p st ↔
      (p ≤ q ∧ st[q - p]? = some (some i))) := by
  induction st with
  | nil =>
    intro p q
    simp [join_mode_members_from]
  | cons s rest ih =>
    intro p q
    simp only [join_mode_members_from, List.mem_append]
    constructor
    · intro h
      rcases h with h | h
      · by_cases hs : s = some i
        · rw [if_pos hs] at h
          simp only [List.mem_singleton] at h
          subst h
          refine ⟨Nat.le_refl q, ?_⟩
          rw [Nat.sub_self]
          simp [hs]
        · rw [if_neg hs] at h
          simp at h
      · have h1 := (ih (p + 1) q).1 h
        refine ⟨by omega, ?_⟩
        have hq : q - p = (q - (p + 1)) + 1 := by omega
        rw [hq]
        simpa using h1.2
    · intro h
      obtain ⟨hle, hidx⟩ := h
      by_cases heq : q = p
      · subst heq
        rw [Nat.sub_self] at hidx
        simp only [List.getElem?_cons_zero, Option.some.injEq] at hidx
        left
        rw [if_pos hidx]
        simp
      · right
        apply (ih (p + 1) q).2
        refine ⟨by omega, ?_⟩
        have hq : q - p = (q - (p + 1)) + 1 := by omega
        rw [hq] at hidx
        simpa using hidx

/-- Claim C3 counterexample.  Children emitting the three bytes
`120 0 121` and `120 0 122` yield the captured buffers `[120, 0, 121, 0]`
and `[120, 0, 122, 0]` (by the join capture path at the default limits),
which are not byte-identical — yet `join_mode_finish` assigns both hosts
class 0, because `strcmp` compares the captures only up to their first
nul.  This refutes the claim that two hosts share a class only if their
captured outputs are byte-identical. -/
theorem claim_C3_counterexample :
    join_capture 8192 1024 [[120, 0, 121]] = [120, 0, 121, 0] ∧
      join_capture 8192 1024 [[120, 0, 122]] = [120, 0, 122, 0] ∧
      ([120, 0, 121, 0] : List Nat) ≠ [120, 0, 122, 0] ∧
      join_mode_finish_assign [[120, 0, 121, 0], [120, 0, 122, 0]] =
        [some 0, some 0] := by
  refine ⟨rfl, rfl, by decide, rfl⟩

/-- Claim C3 as amended.  When the join aggregator runs, the classes it
forms are a partition of the roster: the assignment is total — one class
index per host, so classes are pairwise disjoint and their union is the
roster — and two hosts share a class iff their captured outputs are equal
as nul-terminated strings, i.e. byte-identical up to the first nul, which
is what `strcmp` compares.  Class indices follow first-seen roster order
(each host's index is the rank of its output string among the distinct
output strings in first-seen order), and the members of each class are
enumerated in roster order: the member list of class `i` is strictly
increasing in roster position and contains exactly the hosts assigned
`i`. -/
theorem claim_C3_join_classes (outs : List (List Nat)) :
    (join_mode_finish_assign outs).length = outs.length ∧
      (∀ (p : Nat) (o : List Nat), outs[p]? = some o →
        (join_mode_finish_assign outs)[p]? =
          some (some (rank (cstr o) (first_seen_acc [] (outs.map cstr))))) ∧
      (∀ (p q : Nat) (o1 o2 : List Nat), outs[p]? = some o1 →
        outs[q]? = some o2 →
        ((join_mode_finish_assign outs)[p]? =
            (join_mode_finish_assign outs)[q]? ↔ cstr o1 = cstr o2)) ∧
      (∀ i : Nat, (join_mode_members outs i).Pairwise (· < ·)) ∧
      (∀ i q : Nat, q ∈ join_mode_members outs i ↔
        (join_mode_finish_assign outs)[q]? = some (some i)) := by
  have hchar := join_mode_finish_assign_char outs
  refine ⟨by rw [hchar]; simp, ?_, ?_, ?_, ?_⟩
  · intro p o hp
    rw [hchar, List.getElem?_map, hp, Option.map_some']
  · intro p q o1 o2 hp hq
    have h1 : (join_mode_finish_assign outs)[p]? =
        some (some (rank (cstr o1) (first_seen_acc [] (outs.map cstr)))) := by
      rw [hchar, List.getElem?_map, hp, Option.map_some']
    have h2 : (join_mode_finish_assign outs)[q]? =
        some (some (rank (cstr o2) (first_seen_acc [] (outs.map cstr)))) := by
      rw [hchar, List.getElem?_map, hq, Option.map_some']
    rw [h1, h2]
    constructor
    · intro h
      have hr : rank (cstr o1) (first_seen_acc [] (outs.map cstr)) =
          rank (cstr o2) (first_seen_acc [] (outs.map cstr)) := by
        have := Option.some.inj (Option.some.inj h)
        exact this
      have hm1 : cstr o1 ∈ first_seen_acc [] (outs.map cstr) :=
        mem_first_seen_acc
          (List.mem_map_of_mem cstr (List.getElem?_mem hp)) []
      have hm2 : cstr o2 ∈ first_seen_acc [] (outs.map cstr) :=
        mem_first_seen_acc
          (List.mem_map_of_mem cstr (List.getElem?_mem hq)) []
      exact rank_inj hm1 hm2 hr
    · intro h
      rw [h]
  · intro i
    exact join_mode_members_from_sorted i (join_mode_finish_assign outs) 0
  · intro i q
    have h := join_mode_members_from_mem i (join_mode_finish_assign outs) 0 q
    unfold join_mode_members
    rw [h]
    simp

/-- Witness for claim C3 as amended, at the concrete roster of captured
outputs `hi\0`, `x\0`, `hi\0`: hosts 0 and 2 share class 0 because their
captured strings are equal, host 0 holds the first-seen rank of its
output, and host 2 is a member of class 0. -/
theorem claim_C3_join_classes_witness :
    (join_mode_finish_assign [[104, 105, 0], [120, 0], [104, 105, 0]])[0]? =
        some (some (rank (cstr [104, 105, 0])
          (first_seen_acc []
            ([[104, 105, 0], [120, 0], [104, 105, 0]].map cstr)))) ∧
      ((join_mode_finish_assign
            [[104, 105, 0], [120, 0], [104, 105, 0]])[0]? =
          (join_mode_finish_assign
            [[104, 105, 0], [120, 0], [104, 105, 0]])[2]? ↔
        cstr [104, 105, 0] = cstr [104, 105, 0]) ∧
      (2 ∈ join_mode_members [[104, 105, 0], [120, 0], [104, 105, 0]] 0 ↔
        (join_mode_finish_assign
          [[104, 105, 0], [120, 0], [104, 105, 0]])[2]? = some (some 0)) :=
  ⟨(claim_C3_join_classes [[104, 105, 0], [120, 0], [104, 105, 0]]).2.1
      0 [104, 105, 0] rfl,
    (claim_C3_join_classes [[104, 105, 0], [120, 0], [104, 105, 0]]).2.2.1
      0 2 [104, 105, 0] [104, 105, 0] rfl rfl,
    (claim_C3_join_classes [[104, 105, 0], [120, 0], [104, 105, 0]]).2.2.2.2
      0 2⟩

/-! ## Theorems: group mode (claim C9) -/

theorem group_run_spec (anonymous : Bool) (ds : List (Nat × List Nat)) :
    ∀ prev : Option (Nat × List Nat),
      group_run anonymous (group_state_of prev) ds =
        group_spec anonymous prev ds := by
  induction ds with
  | nil =>
    intro prev
    cases prev <;> rfl
  | cons d ds ih =>
    intro prev
    obtain ⟨h, b⟩ := d
    have htail : group_run anonymous
        (⟨some h, decide (b.getLast? = some 10)⟩ : GroupState) ds =
        group_spec anonymous (some (h, b)) ds :=
      ih (some (h, b))
    cases prev with
    | none =>
      show group_run anonymous group_init ((h, b) :: ds) = _
      simp only [group_run, group_spec, process_data_group, group_init]
      rw [if_pos (by simp : (none : Option Nat) ≠ some h)]
      rw [htail]
      simp
    | some p =>
      obtain ⟨p1, p2⟩ := p
      show group_run anonymous
          (⟨some p1, decide (p2.getLast? = some 10)⟩ : GroupState)
          ((h, b) :: ds) = _
      simp only [group_run, group_spec, process_data_group]
      by_cases hp : p1 = h
      · rw [if_neg (by simp [hp] : ¬ (some p1 ≠ some h)), if_pos hp, htail]
        simp
      · rw [if_pos (by simp [hp] : (some p1 ≠ some h)), if_neg hp, htail]
        by_cases hnl : p2.getLast? = some 10
        · rw [if_pos hnl]
          simp [hnl]
        · rw [if_neg hnl]
          simp [hnl]

theorem header_count_nil (h : Nat) : header_count h [] = 0 := rfl

theorem header_count_append (h : Nat) (a b : List GroupEv) :
    header_count h (a ++ b) = header_count h a + header_count h b := by
  simp [header_count, List.filter_append]

theorem header_count_header (h h2 : Nat) :
    header_count h [GroupEv.header h2] = if h2 = h then 1 else 0 := by
  by_cases e : h2 = h <;> simp [header_count, e]

theorem header_count_sep (h : Nat) : header_count h [GroupEv.sep] = 0 := by
  simp [header_count]

theorem header_count_chunk (h h2 : Nat) (b : List Nat) :
    header_count h [GroupEv.chunk h2 b] = 0 := by
  simp [header_count]

theorem group_spec_header_count (h : Nat) (ds : List (Nat × List Nat)) :
    ∀ prev : Option (Nat × List Nat),
      header_count h (group_spec false prev ds) =
        run_count h (prev.map Prod.fst) ds := by
  induction ds with
  | nil =>
    intro prev
    rfl
  | cons d ds ih =>
    intro prev
    obtain ⟨h2, b⟩ := d
    cases prev with
    | none =>
      simp only [group_spec, run_count, Option.map_none']
      rw [header_count_append, header_count_append, header_count_chunk,
        ih (some (h2, b))]
      simp only [Bool.not_false, if_true, header_count_header, Option.map_some']
      have hcond : (h2 = h ∧ (none : Option Nat) ≠ some h) ↔ h2 = h := by
        simp
      by_cases e : h2 = h
      · rw [if_pos e, if_pos (hcond.2 e)]
        omega
      · rw [if_neg e, if_neg (fun habs => e (hcond.1 habs))]
        omega
    | some p =>
      obtain ⟨p1, p2⟩ := p
      simp only [group_spec, run_count, Option.map_some']
      rw [header_count_append, header_count_append, header_count_chunk,
        ih (some (h2, b))]
      simp only [Option.map_some']
      by_cases hp : p1 = h2
      · rw [if_pos hp, header_count_nil]
        have : ¬ (h2 = h ∧ (some p1 : Option Nat) ≠ some h) := by
          intro ⟨e1, e2⟩
          exact e2 (by rw [hp, e1])
        rw [if_neg this]
        omega
      · rw [if_neg hp]
        simp only [Bool.not_false, if_true]
        rw [header_count_append, header_count_header]
        have hsep : header_count h
            (if p2.getLast? = some 10 then [] else [GroupEv.sep]) = 0 := by
          by_cases hnl : p2.getLast? = some 10
          · rw [if_pos hnl, header_count_nil]
          · rw [if_neg hnl, header_count_sep]
        rw [hsep]
        by_cases e : h2 = h
        · have hcc : (h2 = h ∧ (some p1 : Option Nat) ≠ some h) := by
            refine ⟨e, ?_⟩
            intro habs
            exact hp (by rw [Option.some.inj habs, e])
          rw [if_pos e, if_pos hcc]
          omega
        · have hcc : ¬ (h2 = h ∧ (some p1 : Option Nat) ≠ some h) := by
            intro ⟨e1, _⟩
            exact e e1
          rw [if_neg e, if_neg hcc]
          omega

/-- Claim C9.  In group mode, over every sequence of dispatched chunks: a
run is fully characterised in terms of the previous dispatch — when the
owning host changes (or on the first dispatch) a separating newline is
emitted iff the previously written chunk did not end in a newline, then
the host header unless anonymous, then the chunk — and consequently, with
headers on, the header of a host is emitted exactly once per maximal
contiguous run of that host's chunks (it reappears only after another host
interposes).  Dispatched chunks are nonempty in the program
(`assert(bytes > 0)`); the latch compares the chunk's final byte exactly as
`buf[bytes - 1] == '\n'` does. -/
theorem claim_C9_group_headers :
    (∀ (anonymous : Bool) (ds : List (Nat × List Nat)),
      group_run anonymous group_init ds = group_spec anonymous none ds) ∧
    (∀ (h : Nat) (ds : List (Nat × List Nat)),
      header_count h (group_run false group_init ds) = run_count h none ds) := by
  constructor
  · intro anonymous ds
    exact group_run_spec anonymous ds none
  · intro h ds
    have h1 : group_run false group_init ds = group_spec false none ds :=
      group_run_spec false ds none
    rw [h1]
    have h2 := group_spec_header_count h ds none
    simpa using h2

/-! ## Theorems: scheduler concurrency cap (claim C5) -/

theorem main_loop_admission_le (m : Nat) :
    ∀ r o : Nat, o ≤ m → (main_loop_admission m r o).2 ≤ m := by
  intro r
  induction r with
  | zero =>
    intro o ho
    exact ho
  | succ r ih =>
    intro o ho
    unfold main_loop_admission
    by_cases hlt : o < m
    · rw [if_pos hlt]
      exact ih (o + 1) hlt
    · rw [if_neg hlt]
      exact ho

theorem main_loop_step_outstanding {m : Nat} {s t : SchedState}
    (hstep : MainLoopStep m s t) (hs : s.outstanding ≤ m) :
    t.outstanding ≤ m := by
  cases hstep with
  | iter k hk =>
    show (main_loop_admission m s.remaining s.outstanding).2 - k ≤ m
    have := main_loop_admission_le m s.remaining s.outstanding hs
    omega

theorem main_loop_reach_outstanding (m : Nat) {s t : SchedState}
    (h : MainLoopReach m s t) (hs : s.outstanding ≤ m) :
    t.outstanding ≤ m := by
  induction h with
  | refl => exact hs
  | tail _ hstep ih => exact main_loop_step_outstanding hstep ih

theorem main_loop_reach_example :
    MainLoopReach 1 (main_loop_init 2) ⟨0, 0, 2⟩ := by
  have s1 : MainLoopStep 1 ⟨2, 0, 0⟩ ⟨1, 0, 1⟩ :=
    @MainLoopStep.iter 1 ⟨2, 0, 0⟩ 1 (by decide)
  have s2 : MainLoopStep 1 ⟨1, 0, 1⟩ ⟨0, 0, 2⟩ :=
    @MainLoopStep.iter 1 ⟨1, 0, 1⟩ 1 (by decide)
  exact Relation.ReflTransGen.tail (Relation.ReflTransGen.tail
    Relation.ReflTransGen.refl s1) s2

/-- Claim C5.  At every moment of the main loop the number of admitted but
not yet reaped children is at most the concurrency cap `max_jobs`: every
state reachable from loop entry satisfies `outstanding ≤ max_jobs`, and the
admission loop itself never pushes `outstanding` past the cap.  The cap
bounds concurrently running children, not the total launched: with cap 1
and 2 hosts, a state with 2 children reaped is reachable because the slot
freed by a reap is refilled by a later admission. -/
theorem claim_C5_concurrency_cap :
    (∀ (m n : Nat) (s : SchedState),
      MainLoopReach m (main_loop_init n) s → s.outstanding ≤ m) ∧
    (∀ m r o : Nat, o ≤ m → (main_loop_admission m r o).2 ≤ m) ∧
    MainLoopReach 1 (main_loop_init 2) ⟨0, 0, 2⟩ := by
  refine ⟨?_, ?_, main_loop_reach_example⟩
  · intro m n s h
    exact main_loop_reach_outstanding m h (Nat.zero_le m)
  · intro m r o ho
    exact main_loop_admission_le m r o ho

/-- Witness for claim C5: the concrete reachable state `⟨0, 0, 2⟩` under
cap 1 obeys the bound, and a concrete admission from 0 outstanding with 5
hosts remaining stays within cap 1. -/
theorem claim_C5_concurrency_cap_witness :
    (⟨0, 0, 2⟩ : SchedState).outstanding ≤ 1 ∧ (main_loop_admission 1 5 0).2 ≤ 1 :=
  ⟨claim_C5_concurrency_cap.1 1 2 ⟨0, 0, 2⟩ claim_C5_concurrency_cap.2.2,
    claim_C5_concurrency_cap.2.1 1 5 0 (by decide)⟩

/-! ## Theorems: reap exactly once after all EOFs (claim C6) -/

theorem child_step_inv_sep {cp cp2 : ChildProc} (hstep : ChildEvStep cp cp2)
    (hio : cp.stdio_fd = -1)
    (hreaps : cp.reaps = if child_process_stdio_done cp then 1 else 0) :
    cp2.stdio_fd = -1 ∧
      cp2.reaps = if child_process_stdio_done cp2 then 1 else 0 := by
  cases hstep with
  | wouldblock => exact ⟨hio, hreaps⟩
  | close s h =>
    obtain ⟨o, e, io, r⟩ := cp
    subst hio
    cases s with
    | stdio =>
      simp only [stream_fd] at h
      omega
    | out =>
      simp only [stream_fd] at h
      have ho2 : (o == (-2 : Int)) = false := by
        rw [beq_eq_false_iff_ne]
        omega
      have hio2 : ((-1 : Int) == (-2 : Int)) = false := by decide
      have hdone : child_process_stdio_done ⟨o, e, -1, r⟩ = false := by
        simp [child_process_stdio_done, ho2, hio2]
      rw [hdone] at hreaps
      simp only [Bool.false_eq_true, if_false] at hreaps
      subst hreaps
      simp only [main_loop_on_close, set_closed, child_process_stdio_done]
      by_cases he : (e == (-2 : Int)) = true
      · simp [he, hio2, child_process_stdio_done]
      · simp [he, hio2, child_process_stdio_done]
    | err =>
      simp only [stream_fd] at h
      have he2 : (e == (-2 : Int)) = false := by
        rw [beq_eq_false_iff_ne]
        omega
      have hio2 : ((-1 : Int) == (-2 : Int)) = false := by decide
      have hdone : child_process_stdio_done ⟨o, e, -1, r⟩ = false := by
        simp [child_process_stdio_done, he2, hio2]
      rw [hdone] at hreaps
      simp only [Bool.false_eq_true, if_false] at hreaps
      subst hreaps
      simp only [main_loop_on_close, set_closed, child_process_stdio_done]
      by_cases ho : (o == (-2 : Int)) = true
      · simp [ho, hio2, child_process_stdio_done]
      · simp [ho, hio2, child_process_stdio_done]

theorem child_step_inv_join {cp cp2 : ChildProc} (hstep : ChildEvStep cp cp2)
    (hout : cp.stdout_fd = -1) (herr : cp.stderr_fd = -1)
    (hreaps : cp.reaps = if child_process_stdio_done cp then 1 else 0) :
    cp2.stdout_fd = -1 ∧ cp2.stderr_fd = -1 ∧
      cp2.reaps = if child_process_stdio_done cp2 then 1 else 0 := by
  cases hstep with
  | wouldblock => exact ⟨hout, herr, hreaps⟩
  | close s h =>
    obtain ⟨o, e, io, r⟩ := cp
    subst hout
    subst herr
    cases s with
    | out =>
      simp only [stream_fd] at h
      omega
    | err =>
      simp only [stream_fd] at h
      omega
    | stdio =>
      simp only [stream_fd] at h
      have hio2 : (io == (-2 : Int)) = false := by
        rw [beq_eq_false_iff_ne]
        omega
      have hm : ((-1 : Int) == (-2 : Int)) = false := by decide
      have hdone : child_process_stdio_done ⟨-1, -1, io, r⟩ = false := by
        simp [child_process_stdio_done, hio2, hm]
      rw [hdone] at hreaps
      simp only [Bool.false_eq_true, if_false] at hreaps
      subst hreaps
      simp [main_loop_on_close, set_closed, child_process_stdio_done, hm]

theorem child_reach_inv_sep {cp t : ChildProc} (h : ChildReach cp t)
    (hio : cp.stdio_fd = -1)
    (hreaps : cp.reaps = if child_process_stdio_done cp then 1 else 0) :
    t.stdio_fd = -1 ∧
      t.reaps = if child_process_stdio_done t then 1 else 0 := by
  induction h with
  | refl => exact ⟨hio, hreaps⟩
  | tail _ hstep ih =>
    exact child_step_inv_sep hstep ih.1 ih.2

theorem child_reach_inv_join {cp t : ChildProc} (h : ChildReach cp t)
    (hout : cp.stdout_fd = -1) (herr : cp.stderr_fd = -1)
    (hreaps : cp.reaps = if child_process_stdio_done cp then 1 else 0) :
    t.stdout_fd = -1 ∧ t.stderr_fd = -1 ∧
      t.reaps = if child_process_stdio_done t then 1 else 0 := by
  induction h with
  | refl => exact ⟨hout, herr, hreaps⟩
  | tail _ hstep ih =>
    exact child_step_inv_join hstep ih.1 ih.2.1 ih.2.2

/-- Claim C6.  For every host, the child is reaped exactly once and never
before all of its pipes have reached EOF: in every state reachable from a
spawned child — with separate stdout/stderr pipes (EOFs in either order) or
with the merged join-mode pipe — the reap count is at most one and equals
one exactly when `child_process_stdio_done` holds, i.e. when every pipe of
the child has been marked closed. -/
theorem claim_C6_reap_after_eof :
    (∀ (a b : Int) (cp : ChildProc), 0 ≤ a → 0 ≤ b →
      ChildReach (spawn_sep a b) cp →
      cp.reaps ≤ 1 ∧ (cp.reaps = 1 ↔ child_process_stdio_done cp = true)) ∧
    (∀ (c : Int) (cp : ChildProc), 0 ≤ c →
      ChildReach (spawn_join c) cp →
      cp.reaps ≤ 1 ∧ (cp.reaps = 1 ↔ child_process_stdio_done cp = true)) := by
  constructor
  · intro a b cp ha hb hreach
    have hinit : (spawn_sep a b).reaps =
        if child_process_stdio_done (spawn_sep a b) then 1 else 0 := by
      have hdone : child_process_stdio_done (spawn_sep a b) = false := by
        have h1 : (a == (-2 : Int)) = false := by
          rw [beq_eq_false_iff_ne]
          omega
        simp [child_process_stdio_done, spawn_sep, h1]
      rw [hdone]
      rfl
    have hfin := (child_reach_inv_sep hreach rfl hinit).2
    rw [hfin]
    by_cases hd : child_process_stdio_done cp = true
    · simp [hd]
    · simp [hd]
  · intro c cp hc hreach
    have hinit : (spawn_join c).reaps =
        if child_process_stdio_done (spawn_join c) then 1 else 0 := by
      have hdone : child_process_stdio_done (spawn_join c) = false := by
        have h1 : (c == (-2 : Int)) = false := by
          rw [beq_eq_false_iff_ne]
          omega
        simp [child_process_stdio_done, spawn_join, h1]
      rw [hdone]
      rfl
    have hfin := (child_reach_inv_join hreach rfl rfl hinit).2.2
    rw [hfin]
    by_cases hd : child_process_stdio_done cp = true
    · simp [hd]
    · simp [hd]

/-- Witness for claim C6: the concrete child spawned with stdout fd 3 and
stderr fd 4, whose stderr hits EOF first and stdout second, ends reaped
exactly once with both pipes closed. -/
theorem claim_C6_reap_after_eof_witness :
    (⟨-2, -2, -1, 1⟩ : ChildProc).reaps ≤ 1 ∧
      ((⟨-2, -2, -1, 1⟩ : ChildProc).reaps = 1 ↔
        child_process_stdio_done ⟨-2, -2, -1, 1⟩ = true) :=
  claim_C6_reap_after_eof.1 3 4 ⟨-2, -2, -1, 1⟩ (by decide) (by decide)
    (Relation.ReflTransGen.tail (Relation.ReflTransGen.tail
        Relation.ReflTransGen.refl
        (ChildEvStep.close (spawn_sep 3 4) StreamSel.err (by decide)))
      (ChildEvStep.close ⟨3, -2, -1, 0⟩ StreamSel.out (by decide)))

/-! ## Theorems: progress line (claim C8) -/

/-- Claim C8 evaluation at the failing input.  In join mode with stdout NOT
a terminal and one host, the main loop still prints the progress line after
the reap (and the final newline): only the initial paint is guarded by the
tty check, the per-reap repaint is not.  With a terminal the initial paint
additionally appears. -/
theorem claim_C8_progress_not_tty :
    main_loop_progress ProgMode.join false 1 =
        [print_progress_line 1 1, ProgressEv.newline] ∧
      main_loop_progress ProgMode.join false 1 ≠ [] ∧
      main_loop_progress ProgMode.join true 1 =
        [print_progress_line 0 1, print_progress_line 1 1,
          ProgressEv.newline] := by
  refine ⟨rfl, by decide, rfl⟩

/-! ## Theorems: exit codes (claim C4) -/

/-- Claim C4 counterexample.  An over-long roster line (here 100 bytes of
`a`, of which `fgets` returns the first 63 without a newline) aborts with
exit code 2, not 3; likewise pushing a command argument at the
`MAX_ARGS - 2` bound aborts with exit code 2, not 3. -/
theorem claim_C4_counterexample :
    parse_hosts_line (fgets_read HOST_NAME_MAX (List.replicate 100 97)) =
        Except.error 2 ∧
      parse_hosts_line (fgets_read HOST_NAME_MAX (List.replicate 100 97)) ≠
        Except.error 3 ∧
      push_arguments_step (MAX_ARGS - 2) = Except.error 2 ∧
      push_arguments_step (MAX_ARGS - 2) ≠ Except.error 3 := by
  refine ⟨rfl, ?_, rfl, ?_⟩
  · intro habs
    rw [show parse_hosts_line (fgets_read HOST_NAME_MAX
        (List.replicate 100 97)) = Except.error 2 from rfl] at habs
    simp at habs
  · intro habs
    rw [show push_arguments_step (MAX_ARGS - 2) = Except.error 2 from
      rfl] at habs
    simp at habs

/-- Claim C4 as amended.  An over-long host name in the roster (a
non-skipped `fgets` line with no newline) and too many composed command
arguments (in `push_arguments` and in `build_ssh_command`) are
configuration errors aborting with exit code 2 — the code shared with usage
errors — while engine runtime errors such as allocation failure abort with
exit code 3. -/
theorem claim_C4_exit_codes :
    (∀ (c : Nat) (rest : List Nat),
      ¬ (c = 35 ∨ c = 32 ∨ c = 10 ∨ c = 0) → 10 ∉ c :: rest →
      parse_hosts_line (c :: rest) = Except.error 2) ∧
    (∀ idx : Nat, MAX_ARGS - 2 ≤ idx →
      push_arguments_step idx = Except.error 2) ∧
    (∀ (args : List (List Nat)) (idx size : Nat),
      size ≤ idx + args.length → args ≠ [] →
      build_ssh_command_fill args idx size = Except.error 2) ∧
    safe_malloc false = Except.error 3 := by
  refine ⟨?_, ?_, ?_, rfl⟩
  · intro c rest hskip hnl
    simp only [parse_hosts_line]
    rw [if_neg hskip, if_neg hnl]
  · intro idx hidx
    unfold push_arguments_step
    rw [if_pos hidx]
  · intro args
    induction args with
    | nil =>
      intro idx size _ hne
      exact absurd rfl hne
    | cons a rest ih =>
      intro idx size hsz _
      unfold build_ssh_command_fill
      by_cases hb : size ≤ idx + 1
      · rw [if_pos hb]
      · rw [if_neg hb]
        cases rest with
        | nil =>
          simp only [List.length_cons, List.length_nil] at hsz
          omega
        | cons a2 rest2 =>
          refine ih (idx + 1) size ?_ (by simp)
          simp only [List.length_cons] at hsz ⊢
          omega

/-- Witness for claim C4 as amended, at concrete inputs: the line `aaa`
with no newline, an argument push at index 254, a 2-argument fill starting
at index 255 with buffer size 256, and a failed allocation. -/
theorem claim_C4_exit_codes_witness :
    parse_hosts_line [97, 97, 97] = Except.error 2 ∧
      push_arguments_step 254 = Except.error 2 ∧
      build_ssh_command_fill [[97], [98]] 255 256 = Except.error 2 ∧
      safe_malloc false = Except.error 3 :=
  ⟨claim_C4_exit_codes.1 97 [97, 97] (by decide) (by decide),
    claim_C4_exit_codes.2.1 254 (by decide),
    claim_C4_exit_codes.2.2.1 [[97], [98]] 255 256 (by decide) (by decide),
    claim_C4_exit_codes.2.2.2⟩

end Sshp
